import Mathlib

/-!
# Verification of the interview-question pipeline (`interview.go`, `utils.go`)

Shallow embedding of the Go package `openai`'s interview-question pipeline.

Modelling conventions:
* Go strings are embedded as `List Char` (`Str`).  All strings reaching the
  byte-position-sensitive code (`strings.Index` with a one-byte needle and the
  `pos <= 2` guard in `stripLeadingNumber`) behave identically under byte and
  character indexing whenever the guard can fire together with a successful
  `strconv.Atoi` parse, because a parseable prefix consists of one-byte
  (ASCII sign/digit) characters only; `'.'`/`')'`/`'\n'` (< 0x80) never occur
  as continuation bytes of a multi-byte UTF-8 character.
* Go `float32` values are embedded as `ℚ`.  The only float arithmetic in the
  pipeline is `int64(min*100)` / `int64(max*100)` truncation and a final
  `float32(r)/float32(100)` division in `float32Rand`; at every call site
  (`0.3,0.9`, `0.2,0.85`, `0.1,0.8`) the float32 computation of
  `int64(min*100)` agrees with the exact rational `⌊min*100⌋` (30/90, 20/85,
  10/80), so the rational model is value-faithful there.
* The process-wide cryptographic random source (`crypto/rand` behind
  `random(min, max)`) is modelled by an explicit stream of draws
  (`List Int`), consumed in call order.  A stream element `n` stands for the
  value `rand.Int(reader, max-min)` produced, so `random` returns `n + min`;
  an exhausted stream models the `err != nil` fallback, which returns `min`.
  Theorems that depend on draws being in range state `0 ≤ n < max - min` as
  hypotheses (that bound is what `crypto/rand.Int` guarantees).
* Go runtime panics (nil-pointer dereference in `mapInterviewSettings`,
  out-of-range slice index in `Shuffle`) are modelled by `Option`: `none`
  is a panic, `some` is normal termination.
* Wall-clock measurement (`time.Now`/`time.Since`) is not modelled; the
  orchestrator takes the measured duration as an opaque parameter.
-/

set_option autoImplicit false
set_option maxRecDepth 8000

namespace GoOpenAI

/-- Go strings, embedded as lists of characters. -/
abbrev Str := List Char

/-- Convenience: the character list of a Lean string literal. -/
def str (s : String) : Str := s.data

/-! ## `utils.go` and Go standard-library helpers -/

/-- Go `unicode.IsSpace`: White_Space code points. -/
def goIsSpace (c : Char) : Bool :=
  c = ' ' ∨ c = '\t' ∨ c = '\n' ∨ c.toNat = 11 ∨ c.toNat = 12 ∨ c = '\r' ∨
  c.toNat = 0x85 ∨ c.toNat = 0xA0 ∨ c.toNat = 0x1680 ∨
  (0x2000 ≤ c.toNat ∧ c.toNat ≤ 0x200A) ∨ c.toNat = 0x2028 ∨
  c.toNat = 0x2029 ∨ c.toNat = 0x202F ∨ c.toNat = 0x205F ∨ c.toNat = 0x3000

/-- Go `strings.TrimSpace`: drop leading and trailing White_Space. -/
def goTrimSpace (s : Str) : Str :=
  ((s.dropWhile goIsSpace).reverse.dropWhile goIsSpace).reverse

/-- Go `strings.HasSuffix`. -/
def goHasSuffix (s suffix : Str) : Bool := suffix.isSuffixOf s

/-- Go `strings.HasPrefix`. -/
def goHasPrefix (s pre : Str) : Bool := pre.isPrefixOf s

/-- Go `strings.Index` with a one-character needle: index of the first
occurrence of `c` in `s`, or `-1` if absent. -/
def goIndexChar : Str → Char → Int
  | [], _ => -1
  | a :: rest, c =>
    if a = c then 0
    else
      let r := goIndexChar rest c
      if r = -1 then -1 else r + 1

/-- Digit run of Go `strconv.Atoi`: accumulates decimal digits, `none` on the
first non-digit.  (The `int64` range check of `Atoi` cannot fire at this
package's call sites, which pass at most two characters.) -/
def parseDigits : Str → Nat → Option Nat
  | [], acc => some acc
  | c :: rest, acc =>
    if c.isDigit then parseDigits rest (acc * 10 + (c.toNat - 48)) else none

/-- Go `strconv.Atoi`: optional sign followed by one or more decimal digits;
`none` models a returned error. -/
def goAtoi : Str → Option Int
  | [] => none
  | '+' :: rest =>
    match rest with
    | [] => none
    | _ :: _ => (parseDigits rest 0).map (fun n => (n : Int))
  | '-' :: rest =>
    match rest with
    | [] => none
    | _ :: _ => (parseDigits rest 0).map (fun n => -(n : Int))
  | s => (parseDigits s 0).map (fun n => (n : Int))

/-- Go `strings.Split(s, sep)` for a one-character separator: the pieces
between occurrences of `sep`, empty pieces included. -/
def goSplit : Str → Char → List Str
  | [], _ => [[]]
  | c :: rest, sep =>
    if c = sep then [] :: goSplit rest sep
    else
      match goSplit rest sep with
      | p :: ps => (c :: p) :: ps
      | [] => [[c]]

/-- `trimStr` (utils.go): trim an optional string, `""` for `nil`. -/
def trimStr : Option Str → Str
  | none => []
  | some s => goTrimSpace s

/-- `random(min, max)` (utils.go): one draw from the stream.  The stream
element is the value `rand.Int(reader, max-min)` delivered (theorems bound it
by `[0, max-min)` where it matters); an empty stream is the error fallback
returning `min`. -/
def randomGo (min _max : Int) (ds : List Int) : Int × List Int :=
  match ds with
  | [] => (min, [])
  | n :: rest => (n + min, rest)

/-- `float32Rand(min, max)` (utils.go): integer draw over
`[⌊min*100⌋, ⌊max*100⌋)` divided by 100 (floats as rationals; the bounds are
positive, so Go's truncation toward zero is `Int.floor`). -/
def float32Rand (min max : ℚ) (ds : List Int) : ℚ × List Int :=
  let p := randomGo (Int.floor (min * 100)) (Int.floor (max * 100)) ds
  ((p.1 : ℚ) / 100, p.2)

/-- `float32PtrRand` (utils.go). -/
def float32PtrRand (min max : ℚ) (ds : List Int) : Option ℚ × List Int :=
  let p := float32Rand min max ds
  (some p.1, p.2)

/-- `intPtrRand` (utils.go). -/
def intPtrRand (min max : Int) (ds : List Int) : Option Int × List Int :=
  let p := randomGo min max ds
  (some p.1, p.2)

/-! ## Data model (`interview.go`) -/

/-- `InterviewDefaultCap`. -/
def InterviewDefaultCap : Int := 5

/-- `InterviewDefaultEngine`. -/
def InterviewDefaultEngine : Str := str "text-davinci-001"

/-- `InterviewMaxCap`. -/
def InterviewMaxCap : Int := 50

/-- `InterviewInput`: optional job title and description. -/
structure InterviewInput where
  JobTitle : Option Str
  JobDescription : Option Str

/-- `InterviewOptions`: optional cap and shuffle flag. -/
structure InterviewOptions where
  Cap : Option Int
  Shuffle : Bool

/-- `InterviewOptions.GetCap`. -/
def InterviewOptions.GetCap (o : InterviewOptions) : Int :=
  let capped := InterviewDefaultCap
  let capped := match o.Cap with
    | none => capped
    | some c => c
  if capped > InterviewMaxCap then InterviewMaxCap else capped

/-- `InterviewRequestSettings` (floats as `ℚ`, pointers as `Option`). -/
structure InterviewRequestSettings where
  Engine : Str
  FrequencyPenalty : ℚ
  MaxTokens : Option Int
  PresencePenalty : ℚ
  Temperature : Option ℚ
  TopP : Option ℚ
  User : Str

/-- `InterviewRequest`. -/
structure InterviewRequest where
  Prompt : Str
  Settings : InterviewRequestSettings

/-- `InterviewQuestion`. -/
structure InterviewQuestion where
  Index : Int
  Question : Str

/-- `InterviewResponse`.  `Duration` is the opaque measured wall-clock time;
`Questions = []` covers the Go nil slice. -/
structure InterviewResponse where
  Request : InterviewRequest
  Duration : Int
  Options : Option InterviewOptions
  Questions : List InterviewQuestion

/-- `InterviewResponse.HasQuestions`.  The Go receiver is a pointer; the
`r != nil` conjunct is vacuous for the value embedding, and `len(nil) > 0`
is false, so only non-emptiness remains. -/
def InterviewResponse.HasQuestions (r : InterviewResponse) : Bool :=
  ¬ r.Questions.isEmpty

/-- `CompletionChoice` (the one field this pipeline reads). -/
structure CompletionChoice where
  Text : Str

/-- `CompletionResponse` (the one field this pipeline reads). -/
structure CompletionResponse where
  Choices : List CompletionChoice

/-- `CompletionRequest` (the fields `mapInterviewSettings` writes). -/
structure CompletionRequest where
  Echo : Bool
  FrequencyPenalty : ℚ
  MaxTokens : Int
  N : Int
  PresencePenalty : ℚ
  Prompt : Str
  Stream : Bool
  Temperature : ℚ
  TopP : ℚ
  User : Str
  Model : Str

/-! ## Settings factories -/

/-- `NewInterviewOptions`. -/
def NewInterviewOptions (cap : Int) : InterviewOptions :=
  { Cap := some cap, Shuffle := false }

/-- `NewInterviewSettings`: the fixed "stable" profile. -/
def NewInterviewSettings (user : Str) : InterviewRequestSettings :=
  { Engine := InterviewDefaultEngine
    FrequencyPenalty := 75/100
    MaxTokens := some 175
    PresencePenalty := 7/10
    Temperature := some 1
    TopP := some (85/100)
    User := user }

/-- `NewInterviewSettingsRand`: the randomized "diversity" profile.  Draws are
consumed in Go evaluation order: the speculative top-p draw, the branch
selector `random(1, 10)`, the temperature draw (taken branch only), then the
frequency-penalty, max-tokens and presence-penalty draws of the composite
literal. -/
def NewInterviewSettingsRand (user : Str) (ds : List Int) :
    InterviewRequestSettings × List Int :=
  let temp : Option ℚ := some 1
  let p1 := float32PtrRand (3/10) (9/10) ds
  let topP := p1.1
  let p2 := randomGo 1 10 p1.2
  let rTempTop := p2.1
  let branch :=
    if rTempTop > 7 then
      let p3 := float32PtrRand (3/10) (9/10) p2.2
      (p3.1, (some (1 : ℚ) : Option ℚ), p3.2)
    else
      (temp, topP, p2.2)
  let p4 := float32Rand (2/10) (85/100) branch.2.2
  let p5 := intPtrRand 175 275 p4.2
  let p6 := float32Rand (1/10) (8/10) p5.2
  ({ Engine := InterviewDefaultEngine
     FrequencyPenalty := p4.1
     MaxTokens := p5.1
     PresencePenalty := p6.1
     Temperature := branch.1
     TopP := branch.2.1
     User := user }, p6.2)

/-- `mapInterviewSettings`: `none` models the nil-pointer panic on a missing
`MaxTokens`, `Temperature` or `TopP`. -/
def mapInterviewSettings (settings : InterviewRequestSettings) (prompt : Str) :
    Option CompletionRequest :=
  match settings.MaxTokens, settings.Temperature, settings.TopP with
  | some mt, some t, some p =>
    some
      { Echo := false
        FrequencyPenalty := settings.FrequencyPenalty
        MaxTokens := mt
        N := 1
        PresencePenalty := settings.PresencePenalty
        Prompt := prompt
        Stream := false
        Temperature := t
        TopP := p
        User := settings.User
        Model := settings.Engine }
  | _, _, _ => none

/-! ## Prompt builder -/

/-- The `newLineRe.ReplaceAllString(input, " ")` pass of
`formatInterviewInput`: `\r?\n` (a `\r\n` pair, or a lone `\n`) becomes one
space; a lone `\r` is untouched. -/
def replaceNewlines : Str → Str
  | [] => []
  | '\r' :: '\n' :: rest => ' ' :: replaceNewlines rest
  | '\n' :: rest => ' ' :: replaceNewlines rest
  | c :: rest => c :: replaceNewlines rest

/-- `formatInterviewInput`: collapse newlines to spaces, remove bullets. -/
def formatInterviewInput (input : Str) : Str :=
  (replaceNewlines input).filter (fun c => c ≠ '•')

/-- `getInterviewPrompt`: the three `fmt.Sprintf` templates. -/
def getInterviewPrompt (jobTitle jobDesc : Str) : Str :=
  if jobTitle.length > 0 ∧ jobDesc.length > 0 then
    str "Create a list of questions for my interview with a " ++
      formatInterviewInput jobTitle ++ str ", " ++ formatInterviewInput jobDesc
  else if jobTitle.length > 0 then
    str "Create a list of questions for my interview with a " ++
      formatInterviewInput jobTitle
  else if jobDesc.length > 0 then
    str "Create a list of questions for my interview with a job description of " ++
      formatInterviewInput jobDesc
  else []

/-! ## Response parser -/

/-- `stripLeadingNumber(question, punc)`: drop a leading enumeration marker
(first occurrence of `punc` at byte 0–2 with an `Atoi`-parseable prefix),
then `strings.TrimSpace`. -/
def stripLeadingNumber (question : Str) (punc : Char) : Str :=
  let pos := goIndexChar question punc
  let ques :=
    if pos > -1 ∧ pos ≤ 2 then
      let tmp := question.take pos.toNat
      match goAtoi tmp with
      | some _ => question.drop (pos.toNat + 1)
      | none => question
    else question
  goTrimSpace ques

/-- `stripLeadingNumbers`: the `"."` pass followed by the `")"` pass. -/
def stripLeadingNumbers (question : Str) : Str :=
  stripLeadingNumber (stripLeadingNumber question '.') ')'

/-- `parseText`: trim, drop one leading `"-"`, strip enumeration markers,
trim again. -/
def parseText (question : Str) : Str :=
  let ques := goTrimSpace question
  let ques := if goHasPrefix ques (str "-") then ques.tail else ques
  goTrimSpace (stripLeadingNumbers ques)

/-- One `Shuffle` loop iteration state: `k+1` is the length of the Go
sub-slice still being shuffled (a prefix of the full list).  The guard is
Go's slice-index bound check: a drawn index outside `[0, k+1)` panics
(`none`).  Swap order matches the Go parallel assignment. -/
def shuffleAux : Nat → List InterviewQuestion → List Int →
    Option (List InterviewQuestion × List Int)
  | 0, qs, ds => some (qs, ds)
  | k + 1, qs, ds =>
    let p := randomGo 0 ((k : Int) + 1) ds
    let r := p.1
    if 0 ≤ r ∧ r < (k : Int) + 1 then
      let i := r.toNat
      let a := qs.getD k ⟨0, []⟩
      let b := qs.getD i ⟨0, []⟩
      shuffleAux k ((qs.set k b).set i a) p.2
    else none

/-- `Shuffle` (interview.go): in-place Fisher-Yates over the whole list. -/
def Shuffle (questions : List InterviewQuestion) (ds : List Int) :
    Option (List InterviewQuestion × List Int) :=
  shuffleAux questions.length questions ds

/-- The retention test of `parseInterviewChoice`'s loop:
`len(part) > 0 && strings.HasSuffix(part, "?")`. -/
def keepLine (part : Str) : Bool :=
  part.length > 0 ∧ goHasSuffix part (str "?")

/-- The accumulation loop of `parseInterviewChoice`: retained lines are
parsed and appended with 1-based indices. -/
def buildData : List Str → List InterviewQuestion → List InterviewQuestion
  | [], data => data
  | part :: rest, data =>
    if keepLine part then
      buildData rest
        (data ++ [{ Index := (data.length : Int) + 1, Question := parseText part }])
    else buildData rest data

/-- `parseInterviewChoice`: split on `"\n"`, keep `"?"`-suffixed non-empty
lines, parse each, shuffle on request.  The Go nil returns are the empty
list; `none` is a shuffle panic. -/
def parseInterviewChoice (ch : CompletionChoice) (shuffle : Bool)
    (ds : List Int) : Option (List InterviewQuestion × List Int) :=
  if ch.Text.length = 0 then some ([], ds)
  else
    let parts := goSplit ch.Text '\n'
    let data := buildData parts []
    if data.length = 0 then some ([], ds)
    else if shuffle then Shuffle data ds
    else some (data, ds)

/-! ## Orchestrator -/

/-- The Go error message of the missing-input validation failure. -/
def InvalidInputMsg : Str := str "must specify a job title or description"

/-- The Go error message of the missing-settings validation failure. -/
def MissingSettingsMsg : Str := str "request settings are required"

/-- The per-choice accumulation of `InterviewQuestions`: append questions
until `len(result.Questions) == quesCap`, re-indexing each as appended. -/
def appendCapped (quesCap : Int) : List InterviewQuestion →
    List InterviewQuestion → List InterviewQuestion
  | acc, [] => acc
  | acc, qu :: rest =>
    if (acc.length : Int) = quesCap then acc
    else appendCapped quesCap
      (acc ++ [{ qu with Index := (acc.length : Int) + 1 }]) rest

/-- The `for _, ch := range resp.Choices` loop of `InterviewQuestions`:
parse each choice (threading the random stream), accumulate capped. -/
def accumChoices (shuffle : Bool) (quesCap : Int) :
    List CompletionChoice → List Int → List InterviewQuestion →
    Option (List InterviewQuestion × List Int)
  | [], ds, acc => some (acc, ds)
  | ch :: rest, ds, acc =>
    match parseInterviewChoice ch shuffle ds with
    | none => none
    | some (items, ds') =>
      accumChoices shuffle quesCap rest ds' (appendCapped quesCap acc items)

/-- `Client.InterviewQuestions`.  The external `CreateCompletion` call is the
parameter `complete`; the second component of the result is the list of
requests actually sent to it (empty = no external call).  The outer `Option`
is a runtime panic; `Except` carries the Go `error` return.  `duration` is
the unmodelled wall-clock measurement. -/
def InterviewQuestions (input : InterviewInput)
    (settings : Option InterviewRequestSettings)
    (options : Option InterviewOptions)
    (complete : CompletionRequest → Except Str CompletionResponse)
    (ds : List Int) (duration : Int) :
    Option (Except Str InterviewResponse) × List CompletionRequest :=
  let jobTitle := trimStr input.JobTitle
  let jobDesc := trimStr input.JobDescription
  if jobTitle.length = 0 ∧ jobDesc.length = 0 then
    (some (Except.error InvalidInputMsg), [])
  else
    match settings with
    | none => (some (Except.error MissingSettingsMsg), [])
    | some s0 =>
      let s := if s0.Engine.length = 0 then
          { s0 with Engine := InterviewDefaultEngine } else s0
      let opts := match options with
        | none => NewInterviewOptions InterviewDefaultCap
        | some o => o
      let prompt := getInterviewPrompt jobTitle jobDesc
      match mapInterviewSettings s prompt with
      | none => (none, [])
      | some request =>
        let quesCap := opts.GetCap
        match complete request with
        | Except.error e => (some (Except.error e), [request])
        | Except.ok resp =>
          match accumChoices opts.Shuffle quesCap resp.Choices ds [] with
          | none => (none, [request])
          | some (qs, _) =>
            (some (Except.ok
              { Request := { Prompt := prompt, Settings := s }
                Duration := duration
                Options := some opts
                Questions := qs }), [request])

/-! ## Helper lemmas -/

theorem getLast?_dropWhile {p : Char → Bool} {s : Str} {c : Char}
    (h : s.getLast? = some c) (hc : p c = false) :
    (s.dropWhile p).getLast? = some c := by
  induction s with
  | nil => simp at h
  | cons a t ih =>
    cases t with
    | nil =>
      simp at h
      subst h
      simp [List.dropWhile, hc]
    | cons b t' =>
      rw [List.getLast?_cons_cons] at h
      rw [List.dropWhile_cons]
      split
      · exact ih h
      · rw [List.getLast?_cons_cons]
        exact h

theorem goTrimSpace_of_getLast {s : Str} {c : Char}
    (h : s.getLast? = some c) (hc : goIsSpace c = false) :
    goTrimSpace s = s.dropWhile goIsSpace ∧
      (goTrimSpace s).getLast? = some c := by
  have ht : (s.dropWhile goIsSpace).getLast? = some c := getLast?_dropWhile h hc
  have hrev : (s.dropWhile goIsSpace).reverse.head? = some c := by
    rw [List.head?_reverse]; exact ht
  obtain ⟨ys, hys⟩ := List.head?_eq_some_iff.mp hrev
  have : goTrimSpace s = s.dropWhile goIsSpace := by
    unfold goTrimSpace
    rw [hys, List.dropWhile_cons_of_neg (by simp [hc]), ← hys,
      List.reverse_reverse]
  exact ⟨this, by rw [this]; exact ht⟩

theorem goTrimSpace_getLast {s : Str} {c : Char}
    (h : s.getLast? = some c) (hc : goIsSpace c = false) :
    goTrimSpace s ≠ [] ∧ (goTrimSpace s).getLast? = some c := by
  obtain ⟨-, h2⟩ := goTrimSpace_of_getLast h hc
  refine ⟨?_, h2⟩
  intro hnil
  rw [hnil] at h2
  simp at h2

theorem goHasSuffix_singleton {s : Str} {c : Char} :
    goHasSuffix s [c] = true ↔ s.getLast? = some c := by
  unfold goHasSuffix
  rw [List.isSuffixOf_iff_suffix]
  constructor
  · rintro ⟨t, rfl⟩
    exact List.getLast?_concat t
  · intro h
    induction s with
    | nil => simp at h
    | cons a t ih =>
      cases t with
      | nil =>
        simp at h
        subst h
        exact List.suffix_refl _
      | cons b t' =>
        rw [List.getLast?_cons_cons] at h
        exact (ih h).trans (List.suffix_cons a (b :: t'))

theorem getLast?_drop {s : Str} {n : Nat} (h : n < s.length) :
    (s.drop n).getLast? = s.getLast? := by
  have hsplit := @List.getLast?_append _ (s.take n) (s.drop n)
  rw [List.take_append_drop] at hsplit
  have hne : s.drop n ≠ [] := by
    intro hnil
    rw [List.drop_eq_nil_iff] at hnil
    omega
  cases hd : (s.drop n).getLast? with
  | none =>
    exact absurd (by simpa using hd) hne
  | some x =>
    rw [hsplit, hd]
    rfl

/-- Correctness of the linear scan `goIndexChar`: either the character is
absent and the result is `-1`, or the result is the first occurrence. -/
theorem goIndexChar_spec (s : Str) (c : Char) :
    (goIndexChar s c = -1 ∧ c ∉ s) ∨
    (∃ i : Nat, goIndexChar s c = (i : Int) ∧ s.get? i = some c ∧
      c ∉ s.take i) := by
  induction s with
  | nil => exact Or.inl ⟨rfl, by simp⟩
  | cons a t ih =>
    by_cases hac : a = c
    · subst hac
      refine Or.inr ⟨0, ?_, rfl, by simp⟩
      simp [goIndexChar]
    · rcases ih with ⟨h1, h2⟩ | ⟨i, h1, h2, h3⟩
      · refine Or.inl ⟨?_, ?_⟩
        · simp [goIndexChar, hac, h1]
        · simp [hac, h2]
          exact fun hca => absurd hca.symm hac
      · refine Or.inr ⟨i + 1, ?_, by simpa using h2, ?_⟩
        · have hne : goIndexChar t c ≠ -1 := by rw [h1]; omega
          simp only [goIndexChar, hac, if_false, if_neg hne]
          rw [h1]
          push_cast
          ring
        · intro hmem
          rw [List.take_succ_cons] at hmem
          rcases List.mem_cons.mp hmem with hca | hmem'
          · exact hac hca.symm
          · exact h3 hmem'

/-- First occurrences are unique: two indices that both see `c` with no `c`
before them are equal. -/
theorem first_occurrence_unique {s : Str} {c : Char} {i j : Nat}
    (hi : s.get? i = some c) (hib : c ∉ s.take i)
    (hj : s.get? j = some c) (hjb : c ∉ s.take j) : i = j := by
  rcases Nat.lt_trichotomy i j with hlt | heq | hgt
  · exfalso
    exact hjb (List.get?_mem (by rw [List.get?_take hlt]; exact hi))
  · exact heq
  · exfalso
    exact hib (List.get?_mem (by rw [List.get?_take hgt]; exact hj))

/-- Declarative characterization of `stripLeadingNumber`: either the first
occurrence of the punctuation is at index ≤ 2 with an `Atoi`-parseable
prefix, and the result drops through that character and trims; or no such
marker exists and the result is just the trimmed input. -/
theorem stripLeadingNumber_characterization (q : Str) (p : Char) :
    (∃ i : Nat, i ≤ 2 ∧ q.get? i = some p ∧ p ∉ q.take i ∧
      (goAtoi (q.take i)).isSome ∧
      stripLeadingNumber q p = goTrimSpace (q.drop (i + 1))) ∨
    ((∀ i : Nat, i ≤ 2 → q.get? i = some p → p ∉ q.take i →
        goAtoi (q.take i) = none) ∧
      stripLeadingNumber q p = goTrimSpace q) := by
  rcases goIndexChar_spec q p with ⟨h1, h2⟩ | ⟨i, h1, h2, h3⟩
  · refine Or.inr ⟨?_, ?_⟩
    · intro j _ hj _
      exact absurd (List.get?_mem hj) h2
    · simp only [stripLeadingNumber, h1]
      norm_num
  · by_cases hle : i ≤ 2
    · have hcond : ((i : Int) > -1 ∧ (i : Int) ≤ 2) := ⟨by omega, by omega⟩
      cases hA : goAtoi (q.take i) with
      | some v =>
        refine Or.inl ⟨i, hle, h2, h3, by rw [hA]; rfl, ?_⟩
        simp only [stripLeadingNumber, h1]
        rw [if_pos hcond]
        simp only [Int.toNat_natCast, hA]
      | none =>
        refine Or.inr ⟨?_, ?_⟩
        · intro j hjle hj hjb
          have := first_occurrence_unique hj hjb h2 h3
          subst this
          exact hA
        · simp only [stripLeadingNumber, h1]
          rw [if_pos hcond]
          simp only [Int.toNat_natCast, hA]
    · have hcond : ¬((i : Int) > -1 ∧ (i : Int) ≤ 2) := by
        rintro ⟨-, hc⟩
        omega
      refine Or.inr ⟨?_, ?_⟩
      · intro j hjle hj hjb
        have := first_occurrence_unique hj hjb h2 h3
        omega
      · simp only [stripLeadingNumber, h1]
        rw [if_neg hcond]

/-! ## Theorems -/

/-- C8: for settings with `MaxTokens`, `Temperature` and `TopP` present and
any prompt, `mapInterviewSettings` copies `Engine` (as `Model`),
`FrequencyPenalty`, `MaxTokens`, `PresencePenalty`, `Temperature`, `TopP`
and `User` unchanged, sets the prompt verbatim, and fixes `Echo := false`,
`N := 1`, `Stream := false`. -/
theorem C8_map_settings_copies_fields (s : InterviewRequestSettings)
    (prompt : Str) (mt : Int) (t p : ℚ)
    (hmt : s.MaxTokens = some mt) (ht : s.Temperature = some t)
    (hp : s.TopP = some p) :
    mapInterviewSettings s prompt = some
      { Echo := false
        FrequencyPenalty := s.FrequencyPenalty
        MaxTokens := mt
        N := 1
        PresencePenalty := s.PresencePenalty
        Prompt := prompt
        Stream := false
        Temperature := t
        TopP := p
        User := s.User
        Model := s.Engine } := by
  simp [mapInterviewSettings, hmt, ht, hp]

/-- Witness for C8 at the stable settings profile. -/
theorem C8_map_settings_copies_fields_witness :
    (NewInterviewSettings (str "u")).MaxTokens = some 175 ∧
    (NewInterviewSettings (str "u")).Temperature = some 1 ∧
    (NewInterviewSettings (str "u")).TopP = some (85/100) ∧
    mapInterviewSettings (NewInterviewSettings (str "u")) (str "prompt") = some
      { Echo := false
        FrequencyPenalty := (NewInterviewSettings (str "u")).FrequencyPenalty
        MaxTokens := 175
        N := 1
        PresencePenalty := (NewInterviewSettings (str "u")).PresencePenalty
        Prompt := str "prompt"
        Stream := false
        Temperature := 1
        TopP := 85/100
        User := (NewInterviewSettings (str "u")).User
        Model := (NewInterviewSettings (str "u")).Engine } :=
  ⟨rfl, rfl, rfl,
    C8_map_settings_copies_fields (NewInterviewSettings (str "u"))
      (str "prompt") 175 1 (85/100) rfl rfl rfl⟩

/-- C7: when both title and description trim to empty, `InterviewQuestions`
fails with the invalid-input error and sends no external request; when the
input is non-empty but settings are `nil` it fails with the missing-settings
error, again sending no external request. -/
theorem C7_validation_before_external_call (input : InterviewInput)
    (settings : Option InterviewRequestSettings)
    (options : Option InterviewOptions)
    (complete : CompletionRequest → Except Str CompletionResponse)
    (ds : List Int) (duration : Int) :
    (trimStr input.JobTitle = [] → trimStr input.JobDescription = [] →
      InterviewQuestions input settings options complete ds duration =
        (some (Except.error InvalidInputMsg), [])) ∧
    (¬(trimStr input.JobTitle = [] ∧ trimStr input.JobDescription = []) →
      settings = none →
      InterviewQuestions input settings options complete ds duration =
        (some (Except.error MissingSettingsMsg), [])) := by
  constructor
  · intro h1 h2
    simp [InterviewQuestions, h1, h2]
  · intro h1 h2
    subst h2
    simp only [InterviewQuestions]
    rw [if_neg]
    simp only [List.length_eq_zero] at h1 ⊢
    exact h1

/-- Witness for C7: a whitespace-only input fails with the invalid-input
error; a real title with `nil` settings fails with the missing-settings
error; neither sends a request. -/
theorem C7_validation_before_external_call_witness :
    (trimStr (some (str " ")) = [] ∧ trimStr (none : Option Str) = [] ∧
      InterviewQuestions ⟨some (str " "), none⟩ none none
          (fun _ => Except.error []) [] 0 =
        (some (Except.error InvalidInputMsg), [])) ∧
    (¬(trimStr (some (str "Engineer")) = [] ∧
        trimStr (none : Option Str) = []) ∧
      InterviewQuestions ⟨some (str "Engineer"), none⟩ none none
          (fun _ => Except.error []) [] 0 =
        (some (Except.error MissingSettingsMsg), [])) :=
  ⟨⟨by decide, rfl,
    (C7_validation_before_external_call ⟨some (str " "), none⟩ none none
        (fun _ => Except.error []) [] 0).1 (by decide) rfl⟩,
   ⟨by decide,
    (C7_validation_before_external_call ⟨some (str "Engineer"), none⟩ none none
        (fun _ => Except.error []) [] 0).2 (by decide) rfl⟩⟩

/-- C2: for every user and every in-range draw stream, the diversity profile
has exactly one of `Temperature`/`TopP` equal to the neutral `1` and the
other strictly inside the randomized band `[0.3, 0.9)`; they are never both
neutral and never both randomized. -/
theorem C2_diversity_profile_exclusive_sampling_control (user : Str)
    (d0 d1 d2 : Int) (rest : List Int) (s : InterviewRequestSettings)
    (hs : s = (NewInterviewSettingsRand user (d0 :: d1 :: d2 :: rest)).1)
    (h0l : 0 ≤ d0) (h0u : d0 < 60) (h1l : 0 ≤ d1) (h1u : d1 < 9)
    (h2 : 7 < d1 + 1 → 0 ≤ d2 ∧ d2 < 60) :
    (s.Temperature = some 1 ∧
      (∃ q, s.TopP = some q ∧ 3/10 ≤ q ∧ q < 9/10) ∧ s.TopP ≠ some 1) ∨
    (s.TopP = some 1 ∧
      (∃ q, s.Temperature = some q ∧ 3/10 ≤ q ∧ q < 9/10) ∧
      s.Temperature ≠ some 1) := by
  subst hs
  simp only [NewInterviewSettingsRand, float32PtrRand, float32Rand, intPtrRand,
    randomGo]
  norm_num
  split_ifs with hb
  · right
    obtain ⟨h2l, h2u⟩ := h2 hb
    have hl : (0 : ℚ) ≤ (d2 : ℚ) := by exact_mod_cast h2l
    have hu : (d2 : ℚ) < 60 := by exact_mod_cast h2u
    refine ⟨rfl, ⟨((d2 : ℚ) + 30) / 100, rfl, by linarith, by linarith⟩, ?_⟩
    intro h
    have := Option.some.inj h
    have : (d2 : ℚ) = 70 := by linarith [this]
    linarith
  · left
    have hl : (0 : ℚ) ≤ (d0 : ℚ) := by exact_mod_cast h0l
    have hu : (d0 : ℚ) < 60 := by exact_mod_cast h0u
    refine ⟨rfl, ⟨((d0 : ℚ) + 30) / 100, rfl, by linarith, by linarith⟩, ?_⟩
    intro h
    have := Option.some.inj h
    have : (d0 : ℚ) = 70 := by linarith [this]
    linarith

/-- Witness for C2 at draw stream `[0, 0, 0]` (top-p branch). -/
theorem C2_diversity_profile_exclusive_sampling_control_witness :
    ((NewInterviewSettingsRand [] [0, 0, 0]).1.Temperature = some 1 ∧
      (∃ q, (NewInterviewSettingsRand [] [0, 0, 0]).1.TopP = some q ∧
        3/10 ≤ q ∧ q < 9/10) ∧
      (NewInterviewSettingsRand [] [0, 0, 0]).1.TopP ≠ some 1) ∨
    ((NewInterviewSettingsRand [] [0, 0, 0]).1.TopP = some 1 ∧
      (∃ q, (NewInterviewSettingsRand [] [0, 0, 0]).1.Temperature = some q ∧
        3/10 ≤ q ∧ q < 9/10) ∧
      (NewInterviewSettingsRand [] [0, 0, 0]).1.Temperature ≠ some 1) :=
  C2_diversity_profile_exclusive_sampling_control [] 0 0 0 []
    (NewInterviewSettingsRand [] [0, 0, 0]).1 rfl
    (le_refl 0) (by norm_num) (le_refl 0) (by norm_num)
    (fun h => absurd h (by norm_num))

/-- C3 counterexample: of the nine equally likely selector draws in
`[1, 10)`, exactly two (not three) exceed 7, and the draw 7 itself (stream
element 6) leaves the temperature at its neutral value, i.e. selects the
top-p branch. -/
theorem C3_counterexample_two_of_nine :
    ((Finset.Ico (1 : ℤ) 10).filter (fun d => 7 < d)).card = 2 ∧
    ¬((Finset.Ico (1 : ℤ) 10).filter (fun d => 7 < d)).card = 3 ∧
    (NewInterviewSettingsRand [] [0, 6, 0]).1.Temperature = some 1 :=
  ⟨by decide, by decide, by decide⟩

/-- C3 amended: the selector is one uniform draw from `[1, 10)` and the
temperature branch is taken exactly when the draw exceeds 7, i.e. for the
draws 8 and 9 — 2 of the 9 equally likely values (probability 2/9), not 3
of 9 (30%). -/
theorem C3_amended_temp_branch_two_of_nine (user : Str) (d0 d1 : Int)
    (rest : List Int)
    (h0l : 0 ≤ d0) (h0u : d0 < 60) (h1l : 0 ≤ d1) (h1u : d1 < 9) :
    ((NewInterviewSettingsRand user (d0 :: d1 :: rest)).1.TopP = some 1 ↔
      d1 + 1 = 8 ∨ d1 + 1 = 9) ∧
    ((Finset.Ico (1 : ℤ) 10).filter (fun d => 7 < d)).card = 2 := by
  refine ⟨?_, by decide⟩
  simp only [NewInterviewSettingsRand, float32PtrRand, float32Rand, intPtrRand,
    randomGo]
  norm_num
  split_ifs with hb
  · simp only [true_iff]
    omega
  · have hl : (0 : ℚ) ≤ (d0 : ℚ) := by exact_mod_cast h0l
    have hu : (d0 : ℚ) < 60 := by exact_mod_cast h0u
    simp only [iff_false]
    constructor
    · intro h
      have := Option.some.inj h
      have : (d0 : ℚ) = 70 := by linarith [this]
      linarith
    · omega

/-- Witness for C3 amended at draw stream `[0, 7]` (selector draw 8). -/
theorem C3_amended_temp_branch_two_of_nine_witness :
    (((NewInterviewSettingsRand [] [0, 7]).1.TopP = some 1 ↔
      (7 : ℤ) + 1 = 8 ∨ (7 : ℤ) + 1 = 9) ∧
    ((Finset.Ico (1 : ℤ) 10).filter (fun d => 7 < d)).card = 2) :=
  C3_amended_temp_branch_two_of_nine [] 0 7 []
    (le_refl 0) (by norm_num) (by norm_num) (by norm_num)

/-- C4 counterexample: `stripLeadingNumbers` is not idempotent — on
`" 1.x"` the first pass only trims (the space blocks `Atoi`), but the second
pass then strips `"1."`. -/
theorem C4_counterexample_not_idempotent :
    stripLeadingNumbers (stripLeadingNumbers (str " 1.x")) ≠
      stripLeadingNumbers (str " 1.x") := by decide

/-- C4 amended: on the concrete example, `stripLeadingNumbers` removes the
leading `"3."` without treating the inner parenthesis as a marker, and a
second application leaves the result unchanged; idempotence does not hold
for arbitrary inputs. -/
theorem C4_amended_example_strip_and_idempotent_there :
    stripLeadingNumbers
        (str "3. What NAS Solutions (enterprise and scale-out) are you familiar with?") =
      str "What NAS Solutions (enterprise and scale-out) are you familiar with?" ∧
    stripLeadingNumbers
        (str "What NAS Solutions (enterprise and scale-out) are you familiar with?") =
      str "What NAS Solutions (enterprise and scale-out) are you familiar with?" :=
  ⟨by decide, by decide⟩

/-- C5 counterexample: the line `"-1)x"` has a negative-integer prefix, yet
`stripLeadingNumber` strips it (Go `strconv.Atoi` accepts a sign) instead of
merely trimming. -/
theorem C5_counterexample_negative_prefix_stripped :
    stripLeadingNumber (str "-1)x") ')' = str "x" ∧
    stripLeadingNumber (str "-1)x") ')' ≠ goTrimSpace (str "-1)x") :=
  ⟨by decide, by decide⟩

/-- C5 amended: `stripLeadingNumber` removes the prefix through the
punctuation exactly when the punctuation's first occurrence is at position
0–2 and the prefix before it parses under Go `strconv.Atoi` — which accepts
an optional sign, so signed (including negative) integer prefixes are also
stripped; every other line is only whitespace-trimmed. -/
theorem C5_amended_strip_iff_atoi_prefix (q : Str) (p : Char) :
    (∃ i : Nat, i ≤ 2 ∧ q.get? i = some p ∧ p ∉ q.take i ∧
      (goAtoi (q.take i)).isSome ∧
      stripLeadingNumber q p = goTrimSpace (q.drop (i + 1))) ∨
    ((∀ i : Nat, i ≤ 2 → q.get? i = some p → p ∉ q.take i →
        goAtoi (q.take i) = none) ∧
      stripLeadingNumber q p = goTrimSpace q) :=
  stripLeadingNumber_characterization q p

theorem stripLeadingNumber_getLast {q : Str} {punc c : Char}
    (h : q.getLast? = some c) (hc : goIsSpace c = false) (hpc : punc ≠ c) :
    stripLeadingNumber q punc ≠ [] ∧
      (stripLeadingNumber q punc).getLast? = some c := by
  rcases stripLeadingNumber_characterization q punc with
    ⟨i, _, hget, -, -, heq⟩ | ⟨-, heq⟩
  · rw [heq]
    have hilen : i < q.length := (List.get?_eq_some.mp hget).1
    have hne : i + 1 < q.length := by
      rcases Nat.lt_or_ge (i + 1) q.length with h' | h'
      · exact h'
      · exfalso
        have hi : i = q.length - 1 := by omega
        have hg : q.get? (q.length - 1) = some c := by
          rw [← List.getLast?_eq_get?]
          exact h
        rw [hi, hg] at hget
        exact hpc (Option.some.inj hget).symm
    have hdrop : (q.drop (i + 1)).getLast? = some c := by
      rw [getLast?_drop hne]
      exact h
    exact goTrimSpace_getLast hdrop hc
  · rw [heq]
    exact goTrimSpace_getLast h hc

theorem parseText_getLast {q : Str} (h : q.getLast? = some '?') :
    parseText q ≠ [] ∧ (parseText q).getLast? = some '?' := by
  have hq : goIsSpace '?' = false := by decide
  have h1 := goTrimSpace_getLast h hq
  have hmid : ∀ t : Str, t.getLast? = some '?' →
      (if goHasPrefix t (str "-") then t.tail else t).getLast? = some '?' := by
    intro t ht
    split
    case isTrue hpre =>
      have : (str "-") <+: t := by
        rw [← List.isPrefixOf_iff_prefix]
        exact hpre
      obtain ⟨rest, hrest⟩ := this
      have ht' : t = '-' :: rest := by rw [← hrest]; rfl
      rw [ht']
      cases rest with
      | nil =>
        rw [ht'] at ht
        simp at ht
      | cons b t' =>
        rw [ht', List.getLast?_cons_cons] at ht
        exact ht
    case isFalse => exact ht
  have h2 := hmid (goTrimSpace q) h1.2
  have h3 := @stripLeadingNumber_getLast _ '.' _ h2 hq (by decide)
  have h4 := @stripLeadingNumber_getLast _ ')' _ h3.2 hq (by decide)
  have h5 := goTrimSpace_getLast h4.2 hq
  simp only [parseText, stripLeadingNumbers]
  exact h5

theorem keepLine_getLast {part : Str} (h : keepLine part = true) :
    part.getLast? = some '?' := by
  simp only [keepLine, Bool.decide_and, Bool.and_eq_true, decide_eq_true_eq] at h
  exact goHasSuffix_singleton.mp h.2

theorem buildData_mem : ∀ (parts : List Str) (acc : List InterviewQuestion)
    (x : InterviewQuestion), x ∈ buildData parts acc →
    x ∈ acc ∨ ∃ part ∈ parts, keepLine part = true ∧
      x.Question = parseText part := by
  intro parts
  induction parts with
  | nil =>
    intro acc x hx
    exact Or.inl hx
  | cons part rest ih =>
    intro acc x hx
    simp only [buildData] at hx
    cases hk : keepLine part with
    | true =>
      rw [if_pos (by simp [hk])] at hx
      rcases ih _ _ hx with hacc | ⟨p', hp', hkeep, hq⟩
      · rcases List.mem_append.mp hacc with hl | hr
        · exact Or.inl hl
        · refine Or.inr ⟨part, List.mem_cons_self _ _, hk, ?_⟩
          rw [List.mem_singleton.mp hr]
      · exact Or.inr ⟨p', List.mem_cons_of_mem _ hp', hkeep, hq⟩
    | false =>
      rw [if_neg (by simp [hk])] at hx
      rcases ih _ _ hx with hacc | ⟨p', hp', hkeep, hq⟩
      · exact Or.inl hacc
      · exact Or.inr ⟨p', List.mem_cons_of_mem _ hp', hkeep, hq⟩

theorem shuffleAux_mem : ∀ (k : Nat) (qs : List InterviewQuestion)
    (ds : List Int) (out : List InterviewQuestion) (ds' : List Int),
    k ≤ qs.length → shuffleAux k qs ds = some (out, ds') →
    ∀ x ∈ out, x ∈ qs := by
  intro k
  induction k with
  | zero =>
    intro qs ds out ds' hk h x hx
    simp only [shuffleAux, Option.some.injEq, Prod.mk.injEq] at h
    obtain ⟨rfl, rfl⟩ := h
    exact hx
  | succ k ih =>
    intro qs ds out ds' hk h x hx
    simp only [shuffleAux] at h
    split at h
    case isFalse => exact absurd h (by simp)
    case isTrue hcond =>
      have hklt : k < qs.length := by omega
      have hilt : ((randomGo 0 ((k : Int) + 1) ds).1).toNat < qs.length := by
        rcases hcond with ⟨hge, hlt⟩
        omega
      have hk' : k ≤ ((qs.set k (qs.getD ((randomGo 0 ((k : Int) + 1) ds).1).toNat ⟨0, []⟩)).set
          ((randomGo 0 ((k : Int) + 1) ds).1).toNat (qs.getD k ⟨0, []⟩)).length := by
        simp
        omega
      have hx' := ih _ _ _ _ hk' h x hx
      rcases List.mem_or_eq_of_mem_set hx' with hset | heq
      · rcases List.mem_or_eq_of_mem_set hset with hqs | heq'
        · exact hqs
        · rw [heq', List.getD_eq_getElem?_getD,
            List.getElem?_eq_getElem hilt, Option.getD_some]
          exact List.getElem_mem hilt
      · rw [heq, List.getD_eq_getElem?_getD,
          List.getElem?_eq_getElem hklt, Option.getD_some]
        exact List.getElem_mem hklt

theorem shuffleAux_length : ∀ (k : Nat) (qs : List InterviewQuestion)
    (ds : List Int) (out : List InterviewQuestion) (ds' : List Int),
    shuffleAux k qs ds = some (out, ds') → out.length = qs.length := by
  intro k
  induction k with
  | zero =>
    intro qs ds out ds' h
    simp only [shuffleAux, Option.some.injEq, Prod.mk.injEq] at h
    obtain ⟨rfl, rfl⟩ := h
    rfl
  | succ k ih =>
    intro qs ds out ds' h
    simp only [shuffleAux] at h
    split at h
    case isFalse => exact absurd h (by simp)
    case isTrue =>
      have := ih _ _ _ _ h
      simpa using this

theorem parseInterviewChoice_mem {ch : CompletionChoice} {sh : Bool}
    {ds : List Int} {out : List InterviewQuestion} {ds' : List Int}
    (h : parseInterviewChoice ch sh ds = some (out, ds')) :
    ∀ x ∈ out, ∃ part ∈ goSplit ch.Text '\n',
      keepLine part = true ∧ x.Question = parseText part := by
  simp only [parseInterviewChoice] at h
  split at h
  · simp only [Option.some.injEq, Prod.mk.injEq] at h
    obtain ⟨rfl, rfl⟩ := h
    intro x hx
    simp at hx
  · split at h
    · simp only [Option.some.injEq, Prod.mk.injEq] at h
      obtain ⟨rfl, rfl⟩ := h
      intro x hx
      simp at hx
    · split at h
      · intro x hx
        have hxd := shuffleAux_mem _ _ _ _ _ (le_refl _) h x hx
        rcases buildData_mem _ _ _ hxd with habs | ⟨part, hp, hk, hq⟩
        · simp at habs
        · exact ⟨part, hp, hk, hq⟩
      · simp only [Option.some.injEq, Prod.mk.injEq] at h
        obtain ⟨rfl, rfl⟩ := h
        intro x hx
        rcases buildData_mem _ _ _ hx with habs | ⟨part, hp, hk, hq⟩
        · simp at habs
        · exact ⟨part, hp, hk, hq⟩

/-- C9: every question produced by the response parser has non-empty text
ending with a question mark: retained lines end with `"?"`, and the
trimming/marker-stripping of `parseText` only removes leading material, so
the trailing `"?"` survives. -/
theorem C9_questions_end_with_question_mark (ch : CompletionChoice)
    (sh : Bool) (ds : List Int) (out : List InterviewQuestion)
    (ds' : List Int)
    (h : parseInterviewChoice ch sh ds = some (out, ds'))
    (q : InterviewQuestion) (hq : q ∈ out) :
    q.Question ≠ [] ∧ goHasSuffix q.Question (str "?") = true := by
  obtain ⟨part, -, hk, hqeq⟩ := parseInterviewChoice_mem h q hq
  have hlast := keepLine_getLast hk
  have hp := parseText_getLast hlast
  rw [hqeq]
  exact ⟨hp.1, goHasSuffix_singleton.mpr hp.2⟩

/-- Witness for C9 on the single-line text `"A?"`. -/
theorem C9_questions_end_with_question_mark_witness :
    (⟨1, str "A?"⟩ : InterviewQuestion).Question ≠ [] ∧
    goHasSuffix (⟨1, str "A?"⟩ : InterviewQuestion).Question (str "?") = true :=
  C9_questions_end_with_question_mark ⟨str "A?"⟩ false [] [⟨1, str "A?"⟩] []
    rfl ⟨1, str "A?"⟩ (List.mem_singleton.mpr rfl)

theorem buildData_of_no_keep : ∀ (parts : List Str)
    (acc : List InterviewQuestion),
    (∀ part ∈ parts, keepLine part = false) → buildData parts acc = acc := by
  intro parts
  induction parts with
  | nil => intro acc _; rfl
  | cons part rest ih =>
    intro acc h
    simp only [buildData]
    rw [if_neg (by simp [h part (List.mem_cons_self _ _)])]
    exact ih _ (fun p hp => h p (List.mem_cons_of_mem _ hp))

theorem parseInterviewChoice_no_questions {ch : CompletionChoice} {sh : Bool}
    {ds : List Int}
    (h : ∀ part ∈ goSplit ch.Text '\n', keepLine part = false) :
    parseInterviewChoice ch sh ds = some ([], ds) := by
  simp only [parseInterviewChoice]
  split
  · rfl
  · rw [buildData_of_no_keep _ _ h]
    rfl

theorem accumChoices_no_questions (sh : Bool) (cap : Int) :
    ∀ (chs : List CompletionChoice) (ds : List Int),
    (∀ ch ∈ chs, ∀ part ∈ goSplit ch.Text '\n', keepLine part = false) →
    accumChoices sh cap chs ds [] = some ([], ds) := by
  intro chs
  induction chs with
  | nil => intro ds _; rfl
  | cons ch rest ih =>
    intro ds h
    simp only [accumChoices]
    rw [parseInterviewChoice_no_questions (h ch (List.mem_cons_self _ _))]
    exact ih ds (fun c hc => h c (List.mem_cons_of_mem _ hc))

/-- C6: with non-empty input, present settings, and a successful external
call whose raw text contains no `"?"`-terminated lines (in particular, empty
text), the orchestrator returns a non-error result with an empty question
list and `HasQuestions = false`. -/
theorem C6_no_questions_is_success (input : InterviewInput)
    (options : Option InterviewOptions) (s : InterviewRequestSettings)
    (complete : CompletionRequest → Except Str CompletionResponse)
    (ds : List Int) (duration : Int) (request : CompletionRequest)
    (resp : CompletionResponse)
    (hne : ¬(trimStr input.JobTitle = [] ∧ trimStr input.JobDescription = []))
    (hmap : mapInterviewSettings
        (if s.Engine.length = 0 then { s with Engine := InterviewDefaultEngine }
         else s)
        (getInterviewPrompt (trimStr input.JobTitle)
          (trimStr input.JobDescription)) = some request)
    (hok : complete request = Except.ok resp)
    (hempty : ∀ ch ∈ resp.Choices, ∀ part ∈ goSplit ch.Text '\n',
      keepLine part = false) :
    ∃ r : InterviewResponse,
      InterviewQuestions input (some s) options complete ds duration =
        (some (Except.ok r), [request]) ∧
      r.Questions = [] ∧ r.HasQuestions = false := by
  simp only [InterviewQuestions]
  rw [if_neg (by simpa [List.length_eq_zero] using hne)]
  simp only [hmap, hok]
  rw [accumChoices_no_questions _ _ _ _ hempty]
  exact ⟨_, rfl, rfl, rfl⟩

/-- Witness for C6: a title-only input, the stable settings profile, and a
single choice with empty text yield a successful empty result. -/
theorem C6_no_questions_is_success_witness :
    ∃ r : InterviewResponse,
      InterviewQuestions ⟨some (str "T"), none⟩
          (some (NewInterviewSettings (str "u"))) none
          (fun _ => Except.ok ⟨[⟨[]⟩]⟩) [] 0 =
        (some (Except.ok r),
          [⟨false, 75/100, 175, 1, 7/10,
            str "Create a list of questions for my interview with a T",
            false, 1, 85/100, str "u", InterviewDefaultEngine⟩]) ∧
      r.Questions = [] ∧ r.HasQuestions = false :=
  C6_no_questions_is_success ⟨some (str "T"), none⟩ none
    (NewInterviewSettings (str "u")) (fun _ => Except.ok ⟨[⟨[]⟩]⟩) [] 0
    ⟨false, 75/100, 175, 1, 7/10,
      str "Create a list of questions for my interview with a T",
      false, 1, 85/100, str "u", InterviewDefaultEngine⟩
    ⟨[⟨[]⟩]⟩ (by decide) rfl rfl (by decide)

theorem goSplit_append_sep (l t : Str) (sep : Char) (hl : sep ∉ l) :
    goSplit (l ++ sep :: t) sep = l :: goSplit t sep := by
  induction l with
  | nil => simp [goSplit]
  | cons c l' ih =>
    have hc : c ≠ sep := fun h => hl (h ▸ List.mem_cons_self _ _)
    have hl' : sep ∉ l' := fun h => hl (List.mem_cons_of_mem _ h)
    simp only [List.cons_append, goSplit, List.append_eq]
    rw [if_neg hc, ih hl']

theorem goSplit_of_not_mem (p : Str) (sep : Char) (hp : sep ∉ p) :
    goSplit p sep = [p] := by
  induction p with
  | nil => rfl
  | cons c rest ih =>
    have hc : c ≠ sep := fun h => hp (h ▸ List.mem_cons_self _ _)
    have hr : sep ∉ rest := fun h => hp (List.mem_cons_of_mem _ h)
    simp only [goSplit, List.append_eq]
    rw [if_neg hc, ih hr]

theorem keepLine_cr_false (l : Str) : keepLine (l ++ ['\r']) = false := by
  cases hk : keepLine (l ++ ['\r']) with
  | false => rfl
  | true =>
    have h := keepLine_getLast hk
    rw [List.getLast?_concat] at h
    exact absurd (Option.some.inj h) (by decide)

theorem buildData_append_skips (parts1 parts2 : List Str)
    (acc : List InterviewQuestion)
    (h : ∀ part ∈ parts1, keepLine part = false) :
    buildData (parts1 ++ parts2) acc = buildData parts2 acc := by
  induction parts1 with
  | nil => rfl
  | cons p rest ih =>
    simp only [List.cons_append, buildData]
    rw [if_neg (by simp [h p (List.mem_cons_self _ _)])]
    exact ih (fun x hx => h x (List.mem_cons_of_mem _ hx))

theorem goSplit_foldr_crlf (lines : List Str) (fin : Str)
    (hl : ∀ l ∈ lines, '\n' ∉ l) :
    goSplit (lines.foldr (fun l acc => l ++ '\r' :: '\n' :: acc) fin) '\n' =
      (lines.map (fun l => l ++ ['\r'])) ++ goSplit fin '\n' := by
  revert hl
  induction lines with
  | nil => intro _; simp
  | cons l rest ih =>
    intro hl
    simp only [List.foldr_cons, List.map_cons, List.cons_append]
    have hmem : '\n' ∉ l ++ ['\r'] := by
      intro hm
      rcases List.mem_append.mp hm with h1 | h2
      · exact hl l (List.mem_cons_self _ _) h1
      · simp at h2
    have hassoc : l ++ '\r' :: '\n' ::
          (rest.foldr (fun l acc => l ++ '\r' :: '\n' :: acc) fin) =
        (l ++ ['\r']) ++ '\n' ::
          (rest.foldr (fun l acc => l ++ '\r' :: '\n' :: acc) fin) := by
      simp
    rw [hassoc, goSplit_append_sep _ _ _ hmem,
      ih (fun x hx => hl x (List.mem_cons_of_mem _ hx))]

/-- C10: for raw text whose lines are CRLF-terminated, every CRLF-terminated
line is excluded from the parse — the parser splits on `"\n"` only, each
piece keeps its trailing `"\r"`, and the trailing-`"?"` test runs before any
trimming — so the parse equals that of the final unterminated piece alone. -/
theorem C10_crlf_lines_excluded (lines : List Str) (finalPiece : Str)
    (sh : Bool) (ds : List Int)
    (hl : ∀ l ∈ lines, ('\n') ∉ l) (hp : ('\n') ∉ finalPiece) :
    parseInterviewChoice
        ⟨lines.foldr (fun l acc => l ++ '\r' :: '\n' :: acc) finalPiece⟩
        sh ds =
      parseInterviewChoice ⟨finalPiece⟩ sh ds := by
  cases lines with
  | nil => rfl
  | cons l0 rest =>
    have hskip : ∀ part ∈ (l0 :: rest).map (fun l => l ++ ['\r']),
        keepLine part = false := by
      intro part hpart
      obtain ⟨l', -, rfl⟩ := List.mem_map.mp hpart
      exact keepLine_cr_false l'
    have hdata : buildData (goSplit
          ((l0 :: rest).foldr (fun l acc => l ++ '\r' :: '\n' :: acc)
            finalPiece) '\n') [] =
        buildData (goSplit finalPiece '\n') [] := by
      rw [goSplit_foldr_crlf _ _ hl, buildData_append_skips _ _ _ hskip]
    simp only [parseInterviewChoice]
    rw [if_neg ?hne]
    case hne =>
      intro h0
      simp only [List.foldr_cons, List.length_append, List.length_cons] at h0
      omega
    rw [hdata]
    by_cases hfin : finalPiece.length = 0
    · rw [if_pos hfin]
      have : finalPiece = [] := List.length_eq_zero.mp hfin
      subst this
      rfl
    · rw [if_neg hfin]

/-- Witness for C10: one CRLF-terminated question line ahead of an
unterminated final line. -/
theorem C10_crlf_lines_excluded_witness :
    parseInterviewChoice
        ⟨[str "A?"].foldr (fun l acc => l ++ '\r' :: '\n' :: acc) (str "B?")⟩
        false [] =
      parseInterviewChoice ⟨str "B?"⟩ false [] :=
  C10_crlf_lines_excluded [str "A?"] (str "B?") false [] (by decide) (by decide)

theorem appendCapped_le (cap : Int) : ∀ (items acc : List InterviewQuestion),
    (acc.length : Int) ≤ cap → ((appendCapped cap acc items).length : Int) ≤ cap := by
  intro items
  induction items with
  | nil =>
    intro acc h
    exact h
  | cons qu rest ih =>
    intro acc h
    simp only [appendCapped]
    split
    · exact h
    · next hne =>
      apply ih
      simp only [List.length_append, List.length_cons, List.length_nil]
      push_cast
      omega

theorem accumChoices_le (sh : Bool) (cap : Int) :
    ∀ (chs : List CompletionChoice) (ds : List Int)
      (acc out : List InterviewQuestion) (ds' : List Int),
    (acc.length : Int) ≤ cap →
    accumChoices sh cap chs ds acc = some (out, ds') →
    (out.length : Int) ≤ cap := by
  intro chs
  induction chs with
  | nil =>
    intro ds acc out ds' h heq
    simp only [accumChoices, Option.some.injEq, Prod.mk.injEq] at heq
    obtain ⟨rfl, rfl⟩ := heq
    exact h
  | cons ch rest ih =>
    intro ds acc out ds' h heq
    simp only [accumChoices] at heq
    cases hpc : parseInterviewChoice ch sh ds with
    | none =>
      rw [hpc] at heq
      exact absurd heq (by simp)
    | some pr =>
      obtain ⟨items, ds2⟩ := pr
      rw [hpc] at heq
      exact ih _ _ _ _ (appendCapped_le cap items acc h) heq

/-- C1 counterexample: a requested cap of `-1` yields effective cap
`min(-1, 50) = -1`, yet a successful run returns 1 question — the
accumulation loop's `len == quesCap` check never fires for a negative cap,
so the bound fails. -/
theorem C1_counterexample_negative_cap :
    ((InterviewQuestions ⟨some (str "T"), none⟩
        (some (NewInterviewSettings (str "u"))) (some ⟨some (-1), false⟩)
        (fun _ => Except.ok ⟨[⟨str "A?"⟩]⟩) [] 0).1.map
      (Except.map (fun r => r.Questions.length))) = some (Except.ok 1) ∧
    InterviewOptions.GetCap ⟨some (-1), false⟩ = -1 ∧
    ¬((1 : Int) ≤ -1) := by
  refine ⟨rfl, by decide, by decide⟩

/-- C1 amended: for every successful invocation whose effective cap —
`min(requested, 50)` when a cap is supplied, the default 5 when options or
cap are absent — is non-negative, the returned question list has length at
most that cap; a negative requested cap disables capping entirely. -/
theorem C1_amended_length_le_cap (input : InterviewInput)
    (settings : Option InterviewRequestSettings)
    (options : Option InterviewOptions)
    (complete : CompletionRequest → Except Str CompletionResponse)
    (ds : List Int) (duration : Int) (r : InterviewResponse)
    (log : List CompletionRequest) (effCap : Int)
    (heff : effCap = (match options with
      | none => (5 : Int)
      | some o => match o.Cap with
        | none => (5 : Int)
        | some c => min c 50))
    (hnn : 0 ≤ effCap)
    (h : InterviewQuestions input settings options complete ds duration =
      (some (Except.ok r), log)) :
    (r.Questions.length : Int) ≤ effCap := by
  have hcap : effCap = (match options with
      | none => NewInterviewOptions InterviewDefaultCap
      | some o => o).GetCap := by
    rw [heff]
    cases options with
    | none => rfl
    | some o =>
      cases hco : o.Cap with
      | none =>
        simp [InterviewOptions.GetCap, hco, InterviewDefaultCap,
          InterviewMaxCap]
      | some c =>
        simp only [InterviewOptions.GetCap, hco, InterviewMaxCap]
        split <;> omega
  simp only [InterviewQuestions] at h
  split at h
  · exact absurd h (by simp)
  · split at h
    · exact absurd h (by simp)
    · split at h
      · exact absurd h (by simp)
      · split at h
        · exact absurd h (by simp)
        · split at h
          · exact absurd h (by simp)
          · next qs ds2 heq =>
            simp only [Prod.mk.injEq, Option.some.injEq,
              Except.ok.injEq] at h
            obtain ⟨hr, -⟩ := h
            rw [← hr]
            rw [hcap]
            refine accumChoices_le _ _ _ _ _ _ _ ?_ heq
            simp only [List.length_nil, Nat.cast_zero]
            rw [← hcap]
            exact hnn

/-- Witness for C1 amended: cap 2 requested, text with one question line;
the run succeeds with 1 ≤ 2 questions. -/
theorem C1_amended_length_le_cap_witness :
    0 ≤ (2 : Int) ∧
    ((({ Request :=
          { Prompt := str "Create a list of questions for my interview with a T",
            Settings := NewInterviewSettings (str "u") },
         Duration := 0
         Options := some ⟨some 2, false⟩
         Questions := [⟨1, str "A?"⟩] } : InterviewResponse).Questions.length :
        Int) ≤ 2) :=
  ⟨by decide,
    C1_amended_length_le_cap ⟨some (str "T"), none⟩
      (some (NewInterviewSettings (str "u"))) (some ⟨some 2, false⟩)
      (fun _ => Except.ok ⟨[⟨str "A?"⟩]⟩) [] 0
      { Request :=
          { Prompt := str "Create a list of questions for my interview with a T",
            Settings := NewInterviewSettings (str "u") },
        Duration := 0
        Options := some ⟨some 2, false⟩
        Questions := [⟨1, str "A?"⟩] }
      [⟨false, 75/100, 175, 1, 7/10,
        str "Create a list of questions for my interview with a T",
        false, 1, 85/100, str "u", InterviewDefaultEngine⟩]
      2 (by decide) (by decide) rfl⟩

end GoOpenAI
